import Mathlib

/-!
Verification of the qscript annotation/comparison core.

Shallow embedding of `annotations.py`, `cmd/compare_codings.py` and
`cmd/check_codings.py`.  Python strings are `String`/`List Char`,
Python `re` scans are translated into deterministic character scanners,
Python exceptions become `Except PyErr`, and the stdout-producing
comparator becomes a trace of per-position step records.
-/

/-- Kinds of Python exceptions the embedded code can raise. -/
inductive PyErr
  | keyError
  | valueError
  | assertionError
  | attributeError
  | indexError
deriving DecidableEq, Repr

/-- Python `\w` (ASCII fragment): letters, digits, underscore. -/
def isWordChar (c : Char) : Bool :=
  c.isAlphanum || c = '_'

/-- Characters allowed in a code name: `[\w-]`. -/
def isCodeChar (c : Char) : Bool :=
  isWordChar c || c = '-'

/-- Python `\s` (ASCII fragment): space, tab, newline, CR, FF, VT. -/
def isSpaceChar (c : Char) : Bool :=
  c = ' ' || c = '\t' || c = '\n' || c = '\r' || c = '\x0b' || c = '\x0c'

/-- Decimal value of a digit list (the `int(...)` conversion of a regex group). -/
def natFromDigits (ds : List Char) : Nat :=
  ds.foldl (fun a c => 10 * a + (c.toNat - 48)) 0

/-- The decimal digit character for d < 10. -/
def digitChar : Nat → Char
  | 0 => '0' | 1 => '1' | 2 => '2' | 3 => '3' | 4 => '4'
  | 5 => '5' | 6 => '6' | 7 => '7' | 8 => '8' | 9 => '9'
  | _ => '*'

/-- Decimal numeral of a natural number, fuelled (fuel > n suffices). -/
def natReprAux : Nat → Nat → List Char
  | 0, _ => []
  | f + 1, n => if n < 10 then [digitChar n] else natReprAux f (n / 10) ++ [digitChar (n % 10)]

/-- Decimal numeral of a natural number. -/
def natRepr (n : Nat) : List Char :=
  natReprAux (n + 1) n

/--
Scanner for `ANNOTATION_CONTENT_REGEXP = r"([\w-]+)(:[\w\d]*)?"` via `re.findall`:
yields (code, csuffix) pairs, where csuffix is `""` when the optional group is
absent.  Fuelled structural recursion; fuel = length of the input suffices since
every step consumes at least one character.
-/
def scanAux : Nat → List Char → List (String × String)
  | 0, _ => []
  | _ + 1, [] => []
  | f + 1, c :: rest =>
    if isCodeChar c then
      let code := c :: rest.takeWhile isCodeChar
      let r1 := rest.dropWhile isCodeChar
      match r1 with
      | ':' :: r2 =>
          (code.asString, (':' :: r2.takeWhile isWordChar).asString) ::
            scanAux f (r2.dropWhile isWordChar)
      | _ => (code.asString, "") :: scanAux f r1
    else scanAux f rest

/-- All (code, csuffix) pairs found in a string, as `re.findall` returns them. -/
def scanCodings (s : String) : List (String × String) :=
  scanAux s.data.length s.data

/--
One optional token of `SPLIT_SUFFIX_REGEXP`: `(?:i(\d+))?` (resp. `u`).
Returns the captured count (if the token participates) and the rest.
-/
def ssToken (c : Char) (s : List Char) : Option Nat × List Char :=
  match s with
  | [] => (none, s)
  | c' :: t =>
    if c' = c then
      let ds := t.takeWhile Char.isDigit
      if ds = [] then (none, s)
      else (some (natFromDigits ds), t.dropWhile Char.isDigit)
    else (none, s)

/-- Strip the optional leading colon (`:?`, greedy). -/
def stripColon (l : List Char) : List Char :=
  match l with
  | c :: t => if c = ':' then t else l
  | [] => l

/--
`re.fullmatch(r":?(?:i(\d+))?(?:u(\d+))?", s)`: `none` models a failed match,
`some (g1, g2)` the two capture groups.
-/
def fullmatchSS (l : List Char) : Option (Option Nat × Option Nat) :=
  let s1 := stripColon l
  let p1 := ssToken 'i' s1
  let p2 := ssToken 'u' p1.2
  if p2.2 = [] then some (p1.1, p2.1) else none

/--
`Annotations.split_suffix`: `(0, 0)` for an empty suffix, otherwise the two
counts of a fullmatch; a failed fullmatch raises (`mm.group` on `None`).
-/
def split_suffix (s : String) : Except PyErr (Nat × Nat) :=
  if s.data = [] then .ok (0, 0)
  else
    match fullmatchSS s.data with
    | none => .error .attributeError
    | some (g1, g2) => .ok (g1.getD 0, g2.getD 0)

/-- Total variant of suffix-count extraction (malformed and absent give 0). -/
def splitD (s : String) : Nat × Nat :=
  match fullmatchSS s.data with
  | some (g1, g2) => (g1.getD 0, g2.getD 0)
  | none => (0, 0)

/-- The codebook: the set of code definitions scanned from `codebook.md`. -/
structure Codebook where
  codes : List String
deriving DecidableEq

/-- `Codebook.IGNORECODE`. -/
def IGNORECODE : String := "-ignorediff"

/-- `Codebook.NONETOPIC`. -/
def NONETOPIC : String := "none"

/-- `Codebook.exists_bare`: whether this code can never have a UI suffix. -/
def Codebook.exists_bare (cb : Codebook) (code : String) : Bool :=
  cb.codes.contains code

/-- `Codebook.exists_with_iu_suffix`. -/
def Codebook.exists_with_iu_suffix (cb : Codebook) (coding : String) : Bool :=
  cb.codes.contains (coding ++ ":iu")

/-- `Codebook.exists_with_u_suffix`. -/
def Codebook.exists_with_u_suffix (cb : Codebook) (coding : String) : Bool :=
  cb.codes.contains (coding ++ ":u")

/-- `Codebook.exists_with_suffix`. -/
def Codebook.exists_with_suffix (cb : Codebook) (coding : String) : Bool :=
  cb.exists_with_iu_suffix coding || cb.exists_with_u_suffix coding

/-- The literal `the_topic` dictionary of `Codebook.topic`. -/
def theTopic : List (String × String) :=
  [("background", "background"), ("gap", "gap"), ("need", "gap"),
   ("objective", "objective"),
   ("design", "design"), ("method", "method"), ("result", "result"),
   ("claim", "result"), ("summary", "summary"),
   ("conclusion", "conclusion"),
   ("fposs", "future"), ("fneed", "future"), ("fgap", "future"), ("fwork", "future"),
   ("limitation", "other"), ("resourcepointer", "other"), ("X", "other")]

/--
`Codebook.topic` on the character list: auxiliary codes map to the none-topic,
`a-`/`h-` strip their prefix and recurse, everything else is a plain dictionary
lookup (`the_topic[code]`), whose failure (KeyError) is modelled as `none`.
-/
def Codebook.topicAux : List Char → Option String
  | '-' :: _ => some NONETOPIC
  | 'a' :: '-' :: rest => Codebook.topicAux rest
  | 'h' :: '-' :: rest => Codebook.topicAux rest
  | cs => theTopic.lookup cs.asString

/-- `Codebook.topic`:  `some t` is a returned topic, `none` a raised KeyError. -/
def Codebook.topic (code : String) : Option String :=
  Codebook.topicAux code.data

/-- `AnnotatedSentence` (field `annotation` renamed to `annot`). -/
structure AnnotatedSentence where
  sentence_idx : Nat
  sentence : String
  annot : String
deriving DecidableEq

/-- `Annotations.is_empty_annotation`: `re.match(r"\{\{\s*\}\}", s)` (prefix match). -/
def is_empty_annot (s : String) : Bool :=
  match s.data with
  | '\x7b' :: '\x7b' :: r =>
    match r.dropWhile isSpaceChar with
    | '\x7d' :: '\x7d' :: _ => true
    | _ => false
  | _ => false

/-- `Annotations.codings_of` (source signature: only `strip_suffixes`). -/
def codings_of (a : String) (strip_suffixes : Bool) : List String :=
  (scanCodings a).map (fun p => if strip_suffixes then p.1 else p.1 ++ p.2)

/-- Whether a code is a subjective extra-code: starts with `-` but is not the ignore sentinel. -/
def isSubjectiveCode (code : String) : Bool :=
  (match code.data with | '-' :: _ => true | _ => false) && code ≠ IGNORECODE

/--
Modelled from the spec: the comparator calls
`codings_of(annotation, strip_suffixes=True, strip_subjective=True)` but the
source tree's `codings_of` has no `strip_subjective` parameter.  Per spec
section 4.3, with both flags set the result is the set of bare code names with
subjective extra-codes (extra codes other than the ignore sentinel) excluded.
-/
def codings_of_stripped (a : String) : List String :=
  (scanCodings a).filterMap (fun p => if isSubjectiveCode p.1 then none else some p.1)

/-- Equality of the Python sets underlying two membership lists. -/
def setEq (l1 l2 : List String) : Bool :=
  l1.all (fun x => l2.contains x) && l2.all (fun x => l1.contains x)

/-- Value stored in the `codes_with_suffixes` dict: a 2-tuple or a 4-tuple. -/
abbrev IUVal := (Nat × Nat) ⊕ (Nat × Nat × Nat × Nat)

/-- Whether a dict value is a 4-tuple. -/
def isQuad : IUVal → Bool
  | .inr _ => true
  | .inl _ => false

/-- Python dict insertion: replace the first binding of the key, else append. -/
def dinsert {α : Type} (k : String) (v : α) : List (String × α) → List (String × α)
  | [] => [(k, v)]
  | (k', v') :: m => if k' = k then (k, v) :: m else (k', v') :: dinsert k v m

/-- Python dict lookup. -/
def dlookup {α : Type} (k : String) : List (String × α) → Option α
  | [] => none
  | (k', v') :: m => if k' = k then some v' else dlookup k m

/-- First loop of `codes_with_suffixes`: seed the dict from annotation 1. -/
def cwsLoop1 (cb : Codebook) : List (String × String) → List (String × IUVal) →
    Except PyErr (List (String × IUVal))
  | [], m => .ok m
  | (code, cs) :: rest, m =>
    if cb.exists_with_suffix code then
      match split_suffix cs with
      | .error e => .error e
      | .ok p => cwsLoop1 cb rest (dinsert code (.inl p) m)
    else cwsLoop1 cb rest m

/--
Second loop of `codes_with_suffixes`: widen each suffix-bearing code of
annotation 2 to a 4-tuple.  Failure modes in source order: `result[code]`
(KeyError), unpacking a non-pair (ValueError), then `split_suffix`.
-/
def cwsLoop2 (cb : Codebook) : List (String × String) → List (String × IUVal) →
    Except PyErr (List (String × IUVal))
  | [], m => .ok m
  | (code, cs) :: rest, m =>
    if cb.exists_with_suffix code then
      match dlookup code m with
      | none => .error .keyError
      | some (.inr _) => .error .valueError
      | some (.inl (i1, u1)) =>
        match split_suffix cs with
        | .error e => .error e
        | .ok (i2, u2) => cwsLoop2 cb rest (dinsert code (.inr (i1, u1, i2, u2)) m)
    else cwsLoop2 cb rest m

/-- Whether `re.findall(r"([\w-]+):(\d+)", s)` is nonempty: some code char
followed by a colon followed by a digit occurs in `s`. -/
def hasNCD : List Char → Bool
  | c1 :: c2 :: c3 :: rest =>
    (isCodeChar c1 && c2 = ':' && c3.isDigit) || hasNCD (c2 :: c3 :: rest)
  | _ => false

/-- `Annotations.codes_with_suffixes`: the two seeding loops followed by the
dead third loop whose body is `assert False`. -/
def codes_with_suffixes (cb : Codebook) (a1 a2 : String) :
    Except PyErr (List (String × IUVal)) :=
  match cwsLoop1 cb (scanCodings a1) [] with
  | .error e => .error e
  | .ok m1 =>
    match cwsLoop2 cb (scanCodings a2) m1 with
    | .error e => .error e
    | .ok m2 => if hasNCD a2.data then .error .assertionError else .ok m2

/-- A 4-tuple of counts (icount1, ucount1, icount2, ucount2). -/
abbrev Quad := Nat × Nat × Nat × Nat

/-- First csuffix recorded for a code in a scanned coding list. -/
def lookupCs (code : String) (l : List (String × String)) : Option String :=
  (l.find? (fun p => p.1 = code)).map Prod.snd

/--
Modelled from the spec: `compare_codings.py` calls
`annots.codes_with_iucounts(...)`, which is absent from the source tree.  Per
spec section 4.5 rule 6 it maps every code common to both annotations that the
codebook declares suffix-bearing to its two (countI, countU) pairs, counts
defaulting to 0 when a token is absent.
-/
def codes_with_iucounts (cb : Codebook) (a1 a2 : String) : List (String × Quad) :=
  let l2 := scanCodings a2
  let m1 : List (String × (Nat × Nat)) :=
    (scanCodings a1).foldl
      (fun m p => if cb.exists_with_suffix p.1 then dinsert p.1 (splitD p.2) m else m) []
  m1.filterMap (fun p =>
    match lookupCs p.1 l2 with
    | some cs2 => some (p.1, (p.2.1, p.2.2, (splitD cs2).1, (splitD cs2).2))
    | none => none)

/-- Which suffix counts diverge in a suffix-count divergence message. -/
inductive IUKind
  | both
  | inform
  | underst
deriving DecidableEq, Repr

/-- Per-entry decision of `CodingsComparator.check_suffixes`. -/
def suffixDecision (mcd : Int) (p : String × Quad) : Option (String × IUKind) :=
  let idiff := |(p.2.1 : Int) - (p.2.2.2.1 : Int)| > mcd
  let udiff := |(p.2.2.1 : Int) - (p.2.2.2.2 : Int)| > mcd
  if idiff ∧ udiff then some (p.1, .both)
  else if idiff then some (p.1, .inform)
  else if udiff then some (p.1, .underst)
  else none

/-- `CodingsComparator.check_suffixes`: one divergence message per diverging code. -/
def check_suffixes (mcd : Int) (m : List (String × Quad)) : List (String × IUKind) :=
  m.filterMap (suffixDecision mcd)

/-- What the comparator does at one aligned position (its rule cascade). -/
inductive Step
  | misalign
  | incomplete
  | doubleIgnore
  | suppressed
  | codesetDiff
  | suffixDiff (msgs : List (String × IUKind))
  | agreement
deriving DecidableEq, Repr

/-- Which steps abort the remaining comparison of the file pair (`break`). -/
def isBreak : Step → Bool
  | .misalign => true
  | .incomplete => true
  | _ => false

/-- Divergences emitted (calls of `_printmsg`) by one step. -/
def divCount : Step → Nat
  | .misalign => 1
  | .incomplete => 1
  | .doubleIgnore => 1
  | .codesetDiff => 1
  | .suffixDiff msgs => msgs.length
  | .suppressed => 0
  | .agreement => 0

/-- The ordered rule cascade of `compare_codings2` at one aligned position. -/
def stepOf (cb : Codebook) (mcd : Int) (as1 as2 : AnnotatedSentence) : Step :=
  if as1.sentence ≠ as2.sentence then .misalign
  else if is_empty_annot as1.annot || is_empty_annot as2.annot then .incomplete
  else
    let set1 := codings_of_stripped as1.annot
    let set2 := codings_of_stripped as2.annot
    if IGNORECODE ∈ set1 ∧ IGNORECODE ∈ set2 then .doubleIgnore
    else if IGNORECODE ∈ set1 ∨ IGNORECODE ∈ set2 then .suppressed
    else if ¬ setEq set1 set2 then .codesetDiff
    else
      let msgs := check_suffixes mcd (codes_with_iucounts cb as1.annot as2.annot)
      if msgs = [] then .agreement else .suffixDiff msgs

/--
`CodingsComparator.compare_codings2`: walk the two sequences in lockstep (zip
semantics), recording the step taken at each position; a breaking step ends the
trace.  The Nat argument is the position of the first pair.
-/
def compareSteps (cb : Codebook) (mcd : Int) :
    Nat → List AnnotatedSentence → List AnnotatedSentence → List (Nat × Step)
  | _, [], _ => []
  | _, _ :: _, [] => []
  | i, a1 :: r1, a2 :: r2 =>
    let st := stepOf cb mcd a1 a2
    (i, st) :: (if isBreak st then [] else compareSteps cb mcd (i + 1) r1 r2)

/-- Total divergences of a comparison trace (the comparator's `msgcount` delta). -/
def traceDivs (tr : List (Nat × Step)) : Nat :=
  (tr.map (fun p => divCount p.2)).sum

/-- `CodingsComparator.get_exitcode`: halve the double-counted total, cap at 255. -/
def get_exitcode (msgcount : Nat) : Nat :=
  min (msgcount / 2) 255

/-- Exit-code computation of `check_codings.execute`: cap the error count at 255. -/
def check_exitcode (errors : Nat) : Nat :=
  min errors 255

/-- How often `check_codings.execute`'s outer loops visit one pair entry
(coder1, coder2): once per listed coder that is one of the two. -/
def countVisits (coders : List String) (c1 c2 : String) : Nat :=
  (coders.filter (fun c => c = c1 || c = c2)).length

/-- `re.fullmatch(r"i\d+|u\d+|i\d+u\d+", s)` as a Bool (`ALLOWED_IU_SUFFIX_REGEXP`). -/
def fullmatchIU (s : String) : Bool :=
  match s.data with
  | 'i' :: t =>
    let ds := t.takeWhile Char.isDigit
    let r := t.dropWhile Char.isDigit
    ds ≠ [] &&
      (r = [] ||
        (match r with
         | 'u' :: t2 => t2.takeWhile Char.isDigit ≠ [] && t2.dropWhile Char.isDigit = []
         | _ => false))
  | 'u' :: t => t.takeWhile Char.isDigit ≠ [] && t.dropWhile Char.isDigit = []
  | _ => false

/-- `re.fullmatch(r"u\d+", s)` as a Bool (`ALLOWED_U_SUFFIX_REGEXP`). -/
def fullmatchU (s : String) : Bool :=
  match s.data with
  | 'u' :: t => t.takeWhile Char.isDigit ≠ [] && t.dropWhile Char.isDigit = []
  | _ => false

/-- The suffix-checking part of `wrong_coding_msg` (source lines 201-212). -/
def check_suffix_part (cb : Codebook) (code : String) (suffix : String) : Option String :=
  if cb.exists_with_iu_suffix code then
    if fullmatchIU suffix then none
    else some ("IU suffix does not match one of the patterns :i1, :u2, :i3u4 : \x27"
               ++ code ++ ":" ++ suffix ++ "\x27")
  else if cb.exists_with_u_suffix code then
    if fullmatchU suffix then none
    else some ("IU suffix does not match the only allowed pattern :u1 : \x27"
               ++ code ++ ":" ++ suffix ++ "\x27")
  else
    some ((if cb.exists_bare code then "should not have an IU suffix" else "unknown code")
          ++ (": \x27" ++ code ++ ":" ++ suffix ++ "\x27"))

/--
`Annotations.wrong_coding_msg`: `.ok none` means no problem, `.ok (some msg)` a
reported error message; `code[-1]` on an empty code raises IndexError.
-/
def wrong_coding_msg (cb : Codebook) (code : String) (csuffix : Option String) :
    Except PyErr (Option String) :=
  let suffix : String := match csuffix with | some cs => ⟨cs.data.drop 1⟩ | none => ""
  if suffix = "" then
    match code.data.getLast? with
    | none => .error .indexError
    | some lastc =>
      let code1 := if lastc = '?' then (⟨code.data.dropLast⟩ : String) else code
      if ¬ cb.exists_bare code1 ∧ ¬ cb.exists_with_suffix code1 then
        .ok (some ("unknown code" ++ (": \x27" ++ code1 ++ "\x27")))
      else .ok none
  else .ok (check_suffix_part cb code suffix)

/-- The four capture groups of one `ANNOTATIONISH_REGEXP` match
(malformed closing, malformed opening, misplaced, valid). -/
abbrev Groups := String × String × String × String

/-- Alternative 1, `\n(\{\{[^}]*\})\n`, applied after the leading newline:
`{{`, then everything up to the first `}`, then `}` and a newline. -/
def alt1 (t : List Char) : Option (String × List Char) :=
  match t with
  | c1 :: c2 :: r =>
    if c1 = '\x7b' ∧ c2 = '\x7b' then
      let run := r.takeWhile (fun c => c ≠ '\x7d')
      match r.dropWhile (fun c => c ≠ '\x7d') with
      | '\x7d' :: '\n' :: rest => some ((('\x7b' :: '\x7b' :: run) ++ ['\x7d']).asString, rest)
      | _ => none
    else none
  | _ => none

/-- Last position in `R` where `}`, `}`, newline occur consecutively
(the greedy backtracking choice of `[^{]*`). -/
def lastTripleIdx (R : List Char) : Option Nat :=
  ((List.range R.length).filter (fun j =>
    match R.drop j with
    | '\x7d' :: '\x7d' :: '\n' :: _ => true
    | _ => false)).getLast?

/-- Alternative 2, `\n(\{[^{]*\}\})\n`, applied after the leading newline. -/
def alt2 (t : List Char) : Option (String × List Char) :=
  match t with
  | c1 :: r =>
    if c1 = '\x7b' then
      let R := r.takeWhile (fun c => c ≠ '\x7b')
      match lastTripleIdx R with
      | some j => some ((('\x7b' :: R.take j) ++ ['\x7d', '\x7d']).asString, r.drop (j + 3))
      | none => none
    else none
  | [] => none

/-- Alternative 3, `\n(.+\{\{.*\}\})`, applied after the leading newline:
inside the current line, `{{` at some position at least 1, `}}` after it;
greedy `.+` and `.*` pick the last viable positions. -/
def alt3 (t : List Char) : Option (String × List Char) :=
  let line := t.takeWhile (fun c => c ≠ '\n')
  let opens := (List.range line.length).filter (fun i =>
    decide (1 ≤ i) &&
      (match line.drop i with | '\x7b' :: '\x7b' :: _ => true | _ => false))
  let closes := (List.range line.length).filter (fun j =>
    match line.drop j with | '\x7d' :: '\x7d' :: _ => true | _ => false)
  match (opens.filter (fun i => closes.any (fun j => i + 2 ≤ j))).getLast? with
  | none => none
  | some i =>
    match (closes.filter (fun j => i + 2 ≤ j)).getLast? with
    | none => none
    | some j => some ((line.take (j + 2)).asString, t.drop (j + 2))

/-- Alternative 4, `\n(\{\{.*\}\})\n`, applied after the leading newline:
`{{`, the rest of the line ending in `}}`, then a newline. -/
def alt4 (t : List Char) : Option (String × List Char) :=
  match t with
  | c1 :: c2 :: r =>
    if c1 = '\x7b' ∧ c2 = '\x7b' then
      let line := r.takeWhile (fun c => c ≠ '\n')
      if 2 ≤ line.length ∧ line.drop (line.length - 2) = ['\x7d', '\x7d'] ∧
          (r.drop line.length).head? = some '\n'
      then some ((('\x7b' :: '\x7b' :: line)).asString, r.drop (line.length + 1))
      else none
    else none
  | _ => none

/-- One attempted match of `ANNOTATIONISH_REGEXP` at the current position:
a leading newline, then the four alternatives in order. -/
def matchAt (s : List Char) : Option (Groups × List Char) :=
  match s with
  | c :: t =>
    if c ≠ '\n' then none
    else
    match alt1 t with
    | some (g, rest) => some ((g, "", "", ""), rest)
    | none =>
      match alt2 t with
      | some (g, rest) => some (("", g, "", ""), rest)
      | none =>
        match alt3 t with
        | some (g, rest) => some (("", "", g, ""), rest)
        | none =>
          match alt4 t with
          | some (g, rest) => some (("", "", "", g), rest)
          | none => none
  | [] => none

/-- `re.findall` scan: try a match at each position, continue after each
match (fuelled; fuel = input length suffices as every step consumes a char). -/
def findAllFrom : Nat → List Char → List Groups
  | 0, _ => []
  | _ + 1, [] => []
  | f + 1, c :: t =>
    match matchAt (c :: t) with
    | some (g, rest) => g :: findAllFrom f rest
    | none => findAllFrom f t

/-- `Annotations.find_all_annotationish`. -/
def find_all_annotationish (s : String) : List Groups :=
  findAllFrom s.data.length s.data

/-- `Annotations.check_annotationish`: `(message, None)` for the three
ill-formed cases, `(None, annotation)` otherwise. -/
def check_annotationish (m : Groups) : Option String × Option String :=
  if m.1 ≠ "" then
    (some ("second closing brace appears to be missing: \x27" ++ m.1 ++ "\x27\n"), none)
  else if m.2.1 ≠ "" then
    (some ("second opening brace appears to be missing: \x27" ++ m.2.1 ++ "\x27\n"), none)
  else if m.2.2.1 ≠ "" then
    (some ("\x7b\x7b\x7d\x7d annotation must be alone on a line: \x27" ++ m.2.2.1 ++ "\x27\n"),
     none)
  else (none, some m.2.2.2)

/-- Codebook fixture for the concrete comparison scenarios: code `a` is bare,
code `b` is declared suffix-bearing (`b:iu`). -/
def cbC2 : Codebook := ⟨["a", "b:iu"]⟩

/-- Fixture: first coder's sequence whose position 0 has an empty annotation
and whose position 1 is the first sentence mismatch. -/
def s1C3 : List AnnotatedSentence :=
  [⟨1, "s", "\x7b\x7b\x7d\x7d"⟩, ⟨2, "t", "\x7b\x7ba\x7d\x7d"⟩]

/-- Fixture: second coder's sequence paired with `s1C3`. -/
def s2C3 : List AnnotatedSentence :=
  [⟨1, "s", "\x7b\x7bb\x7d\x7d"⟩, ⟨2, "u", "\x7b\x7bc\x7d\x7d"⟩]

/-- Fixture: first coder's sequence with agreement at position 0 and a
sentence mismatch at position 1 (no empty annotations). -/
def s1C3w : List AnnotatedSentence :=
  [⟨1, "s", "\x7b\x7ba\x7d\x7d"⟩, ⟨2, "t", "\x7b\x7ba\x7d\x7d"⟩]

/-- Fixture: second coder's sequence paired with `s1C3w`. -/
def s2C3w : List AnnotatedSentence :=
  [⟨1, "s", "\x7b\x7ba\x7d\x7d"⟩, ⟨2, "u", "\x7b\x7ba\x7d\x7d"⟩]

/-- The suffix-bearing codes of a scanned coding list, in order. -/
def sCodesOfList (cb : Codebook) (l : List (String × String)) : List String :=
  l.filterMap (fun p => if cb.exists_with_suffix p.1 then some p.1 else none)

/-- The suffix-bearing codes occurring in an annotation. -/
def sCodesOf (cb : Codebook) (a : String) : List String :=
  sCodesOfList cb (scanCodings a)

/-- Precondition of `codes_with_suffixes` (claim C9): every suffix-bearing code
of annotation 2 also occurs in annotation 1, occurs at most once in
annotation 2, and annotation 2 contains no `name:digits` coding. -/
def cwsPre (cb : Codebook) (a1 a2 : String) : Prop :=
  (∀ c ∈ sCodesOf cb a2, c ∈ (scanCodings a1).map Prod.fst) ∧
    (sCodesOf cb a2).Nodup ∧ hasNCD a2.data = false

/-- Fixture: a line holding the malformed-opening brace sequence, preceded and
followed by a newline. -/
def tgtC8 : List Char := ("\n\x7babc\x7d\x7d\n" : String).data

/-! ## Helper lemmas -/

theorem takeWhile_append_of_all {p : Char → Bool} (xs ys : List Char) (h : ∀ x ∈ xs, p x) :
    (xs ++ ys).takeWhile p = xs ++ ys.takeWhile p := by
  induction xs with
  | nil => simp
  | cons a t ih =>
    simp only [List.cons_append, List.takeWhile_cons]
    rw [h a (by simp)]
    simp [ih (fun x hx => h x (by simp [hx]))]

theorem dropWhile_append_of_all {p : Char → Bool} (xs ys : List Char) (h : ∀ x ∈ xs, p x) :
    (xs ++ ys).dropWhile p = ys.dropWhile p := by
  induction xs with
  | nil => simp
  | cons a t ih =>
    simp only [List.cons_append, List.dropWhile_cons]
    rw [h a (by simp)]
    simp [ih (fun x hx => h x (by simp [hx]))]

theorem topicAux_default (cs : List Char) (h1 : cs.head? ≠ some '-')
    (h2 : ¬ ∃ t, cs = 'a' :: '-' :: t) (h3 : ¬ ∃ t, cs = 'h' :: '-' :: t) :
    Codebook.topicAux cs = theTopic.lookup cs.asString := by
  rw [Codebook.topicAux.eq_def]
  split
  · next tail => simp at h1
  · next tail => exact absurd ⟨tail, rfl⟩ h2
  · next tail => exact absurd ⟨tail, rfl⟩ h3
  · rfl

theorem lookup_none_iff (l : List (String × String)) (s : String) :
    l.lookup s = none ↔ ∀ p ∈ l, p.1 ≠ s := by
  induction l with
  | nil => simp [List.lookup]
  | cons a t ih =>
    obtain ⟨k, v⟩ := a
    simp only [List.lookup]
    by_cases h : s = k
    · subst h
      simp only [beq_self_eq_true]
      constructor
      · intro hc; exact absurd hc (by simp)
      · intro hall; exact (hall (s, v) (List.mem_cons_self _ _) rfl).elim
    · have hb : (s == k) = false := by simp [h]
      rw [hb, ih]
      constructor
      · intro hall p hp
        rcases List.mem_cons.mp hp with hh | ht
        · subst hh; exact fun hc => h hc.symm
        · exact hall p ht
      · intro hall p hp; exact hall p (List.mem_cons_of_mem _ hp)

theorem digitChar_isDigit (d : Nat) (h : d < 10) : (digitChar d).isDigit = true := by
  interval_cases d <;> decide

theorem digitChar_toNat (d : Nat) (h : d < 10) : (digitChar d).toNat - 48 = d := by
  interval_cases d <;> decide

theorem natFromDigits_append_digit (xs : List Char) (c : Char) :
    natFromDigits (xs ++ [c]) = 10 * natFromDigits xs + (c.toNat - 48) := by
  simp [natFromDigits, List.foldl_append]

theorem natReprAux_spec : ∀ f n, n < f →
    natReprAux f n ≠ [] ∧ (∀ c ∈ natReprAux f n, c.isDigit = true) ∧
      natFromDigits (natReprAux f n) = n := by
  intro f
  induction f with
  | zero => intro n hn; omega
  | succ f ih =>
    intro n hn
    rw [natReprAux]
    by_cases h : n < 10
    · simp only [if_pos h]
      refine ⟨by simp, ?_, ?_⟩
      · intro c hc; simp at hc; subst hc; exact digitChar_isDigit n h
      · show natFromDigits ([] ++ [digitChar n]) = n
        rw [natFromDigits_append_digit, digitChar_toNat n h]
        simp [natFromDigits]
    · simp only [if_neg h]
      have hlt : n / 10 < f := by
        have := Nat.div_lt_self (by omega : 0 < n) (by omega : 1 < 10)
        omega
      obtain ⟨hne, hdig, hval⟩ := ih (n / 10) hlt
      refine ⟨by simp, ?_, ?_⟩
      · intro c hc
        rcases List.mem_append.mp hc with hh | ht
        · exact hdig c hh
        · simp at ht; subst ht
          exact digitChar_isDigit (n % 10) (Nat.mod_lt _ (by omega))
      · rw [natFromDigits_append_digit, hval,
            digitChar_toNat (n % 10) (Nat.mod_lt _ (by omega))]
        omega

theorem natRepr_spec (n : Nat) :
    natRepr n ≠ [] ∧ (∀ c ∈ natRepr n, c.isDigit = true) ∧ natFromDigits (natRepr n) = n :=
  natReprAux_spec (n + 1) n (Nat.lt_succ_self n)

theorem countVisits_cons (a : String) (t : List String) (c1 c2 : String) :
    countVisits (a :: t) c1 c2 =
      (if a = c1 ∨ a = c2 then 1 else 0) + countVisits t c1 c2 := by
  simp only [countVisits, List.filter_cons]
  by_cases h1 : a = c1 ∨ a = c2
  · have hb : (a = c1 || a = c2) = true := by
      rcases h1 with h | h <;> simp [h]
    simp [hb, h1, List.length_cons]
    omega
  · have hb : (a = c1 || a = c2) = false := by
      push_neg at h1
      simp [h1.1, h1.2]
    simp [hb, h1]

theorem countVisits_eq (l : List String) (c1 c2 : String) (h : c1 ≠ c2) :
    countVisits l c1 c2 = l.count c1 + l.count c2 := by
  induction l with
  | nil => rfl
  | cons a t ih =>
    rw [countVisits_cons, ih, List.count_cons, List.count_cons]
    rcases eq_or_ne c1 a with h1 | h1 <;> rcases eq_or_ne c2 a with h2 | h2
    · exact absurd (h1.trans h2.symm) h
    · rw [if_pos (Or.inl h1.symm)]
      subst h1
      simp [beq_iff_eq, Ne.symm h2]
      omega
    · rw [if_pos (Or.inr h2.symm)]
      subst h2
      simp [beq_iff_eq, Ne.symm h1]
      omega
    · rw [if_neg (by push_neg; exact ⟨fun hc => h1 hc.symm, fun hc => h2 hc.symm⟩)]
      simp [beq_iff_eq, Ne.symm h1, Ne.symm h2]

theorem ssToken_run (ch : Char) (ds r : List Char) (hne : ds ≠ [])
    (hd : ∀ x ∈ ds, x.isDigit = true)
    (hr : ∀ c, r.head? = some c → c.isDigit = false) :
    ssToken ch (ch :: (ds ++ r)) = (some (natFromDigits ds), r) := by
  have hrt : r.takeWhile Char.isDigit = [] := by
    cases r with
    | nil => rfl
    | cons a t => simp [List.takeWhile_cons, hr a rfl]
  have hrd : r.dropWhile Char.isDigit = r := by
    cases r with
    | nil => rfl
    | cons a t => simp [List.dropWhile_cons, hr a rfl]
  simp [ssToken, takeWhile_append_of_all ds r hd, hrt,
        dropWhile_append_of_all ds r hd, hrd, hne]

theorem ssToken_run_nil (ch : Char) (ds : List Char) (hne : ds ≠ [])
    (hd : ∀ x ∈ ds, x.isDigit = true) :
    ssToken ch (ch :: ds) = (some (natFromDigits ds), []) := by
  have := ssToken_run ch ds [] hne hd (by intro c hc; simp at hc)
  simpa using this

theorem ssToken_miss (ch : Char) (s : List Char) (h : ∀ c, s.head? = some c → c ≠ ch) :
    ssToken ch s = (none, s) := by
  cases s with
  | nil => rfl
  | cons a t => simp [ssToken, h a rfl]

theorem stripColon_colon (t : List Char) : stripColon (':' :: t) = t := by
  simp [stripColon]

theorem stripColon_ne (l : List Char) (h : ∀ c, l.head? = some c → c ≠ ':') :
    stripColon l = l := by
  cases l with
  | nil => rfl
  | cons a t => simp [stripColon, h a rfl]

theorem fullmatchSS_i (ds : List Char) (hne : ds ≠ []) (hd : ∀ x ∈ ds, x.isDigit = true) :
    fullmatchSS ('i' :: ds) = some (some (natFromDigits ds), none) := by
  have h1 : stripColon ('i' :: ds) = 'i' :: ds :=
    stripColon_ne _ (by intro c hc; simp at hc; subst hc; decide)
  have h2 : ssToken 'i' ('i' :: ds) = (some (natFromDigits ds), []) :=
    ssToken_run_nil 'i' ds hne hd
  have h3 : ssToken 'u' ([] : List Char) = (none, []) := rfl
  simp [fullmatchSS, h1, h2, h3]

theorem fullmatchSS_u (ds : List Char) (hne : ds ≠ []) (hd : ∀ x ∈ ds, x.isDigit = true) :
    fullmatchSS ('u' :: ds) = some (none, some (natFromDigits ds)) := by
  have h1 : stripColon ('u' :: ds) = 'u' :: ds :=
    stripColon_ne _ (by intro c hc; simp at hc; subst hc; decide)
  have h2 : ssToken 'i' ('u' :: ds) = (none, 'u' :: ds) :=
    ssToken_miss _ _ (by intro c hc; simp at hc; subst hc; decide)
  have h3 : ssToken 'u' ('u' :: ds) = (some (natFromDigits ds), []) :=
    ssToken_run_nil 'u' ds hne hd
  simp [fullmatchSS, h1, h2, h3]

theorem fullmatchSS_iu (dsi dsu : List Char) (hine : dsi ≠ [])
    (hid : ∀ x ∈ dsi, x.isDigit = true) (hune : dsu ≠ [])
    (hud : ∀ x ∈ dsu, x.isDigit = true) :
    fullmatchSS ('i' :: (dsi ++ 'u' :: dsu)) =
      some (some (natFromDigits dsi), some (natFromDigits dsu)) := by
  have h1 : stripColon ('i' :: (dsi ++ 'u' :: dsu)) = 'i' :: (dsi ++ 'u' :: dsu) :=
    stripColon_ne _ (by intro c hc; simp at hc; subst hc; decide)
  have h2 : ssToken 'i' ('i' :: (dsi ++ 'u' :: dsu)) = (some (natFromDigits dsi), 'u' :: dsu) :=
    ssToken_run 'i' dsi ('u' :: dsu) hine hid (by intro c hc; simp at hc; subst hc; decide)
  have h3 : ssToken 'u' ('u' :: dsu) = (some (natFromDigits dsu), []) :=
    ssToken_run_nil 'u' dsu hune hud
  simp [fullmatchSS, h1, h2, h3]

theorem fullmatchSS_colon (t : List Char) (h : ∀ c, t.head? = some c → c ≠ ':') :
    fullmatchSS (':' :: t) = fullmatchSS t := by
  unfold fullmatchSS
  rw [stripColon_colon, stripColon_ne t h]

theorem split_suffix_of_match (l : List Char) (g1 g2 : Option Nat) (hne : l ≠ [])
    (h : fullmatchSS l = some (g1, g2)) :
    split_suffix ⟨l⟩ = .ok (g1.getD 0, g2.getD 0) := by
  simp [split_suffix, hne, h]

/-- Claim C7: split_suffix is correct on the declared suffix shapes: for every
m, n, the suffix `i<m>` yields (m, 0), `u<n>` yields (0, n), `i<m>u<n>` yields
(m, n), each optionally preceded by a colon, and the empty suffix yields (0, 0);
each count defaults to 0 exactly when its token is absent. -/
theorem C7_extract_suffix_counts (m n : Nat) :
    split_suffix ⟨'i' :: natRepr m⟩ = .ok (m, 0) ∧
    split_suffix ⟨'u' :: natRepr n⟩ = .ok (0, n) ∧
    split_suffix ⟨'i' :: (natRepr m ++ 'u' :: natRepr n)⟩ = .ok (m, n) ∧
    split_suffix ⟨':' :: 'i' :: natRepr m⟩ = .ok (m, 0) ∧
    split_suffix ⟨':' :: 'u' :: natRepr n⟩ = .ok (0, n) ∧
    split_suffix ⟨':' :: 'i' :: (natRepr m ++ 'u' :: natRepr n)⟩ = .ok (m, n) ∧
    split_suffix "" = .ok (0, 0) := by
  obtain ⟨hm1, hm2, hm3⟩ := natRepr_spec m
  obtain ⟨hn1, hn2, hn3⟩ := natRepr_spec n
  have hfi : fullmatchSS ('i' :: natRepr m) = some (some m, none) := by
    rw [fullmatchSS_i _ hm1 hm2, hm3]
  have hfu : fullmatchSS ('u' :: natRepr n) = some (none, some n) := by
    rw [fullmatchSS_u _ hn1 hn2, hn3]
  have hfiu : fullmatchSS ('i' :: (natRepr m ++ 'u' :: natRepr n)) = some (some m, some n) := by
    rw [fullmatchSS_iu _ _ hm1 hm2 hn1 hn2, hm3, hn3]
  refine ⟨?_, ?_, ?_, ?_, ?_, ?_, by rfl⟩
  · exact split_suffix_of_match _ (some m) none (by simp) hfi
  · exact split_suffix_of_match _ none (some n) (by simp) hfu
  · exact split_suffix_of_match _ (some m) (some n) (by simp) hfiu
  · exact split_suffix_of_match _ (some m) none (by simp)
      ((fullmatchSS_colon _ (by intro c hc; simp at hc; subst hc; decide)).trans hfi)
  · exact split_suffix_of_match _ none (some n) (by simp)
      ((fullmatchSS_colon _ (by intro c hc; simp at hc; subst hc; decide)).trans hfu)
  · exact split_suffix_of_match _ (some m) (some n) (by simp)
      ((fullmatchSS_colon _ (by intro c hc; simp at hc; subst hc; decide)).trans hfiu)

/-- Claim C10: split_suffix is partial on malformed input: every nonempty
suffix string that does not fully match `:?(?:i(\d+))?(?:u(\d+))?` makes
split_suffix raise (AttributeError from calling group on None) instead of
returning a count pair. -/
theorem C10_split_suffix_partial (s : String) (hne : s.data ≠ [])
    (h : fullmatchSS s.data = none) :
    split_suffix s = .error .attributeError := by
  simp [split_suffix, hne, h]

/-- Witness for C10 at the reversed-token suffix `u1i2` and at `x3`. -/
theorem C10_witness :
    ("u1i2" : String).data ≠ [] ∧ fullmatchSS ("u1i2" : String).data = none ∧
      split_suffix "u1i2" = .error PyErr.attributeError ∧
      split_suffix "x3" = .error PyErr.attributeError :=
  ⟨by decide, by decide,
   C10_split_suffix_partial "u1i2" (by decide) (by decide),
   C10_split_suffix_partial "x3" (by decide) (by decide)⟩

/-- Claim C4: the comparison tool's exit code is min(msgcount // 2, 255) where
msgcount double-counts divergences because every unordered coder pair is
visited twice by the outer loops; the validation tool's exit code is
min(errors, 255); 1000 raw validation errors exit with 255; exit code 0 means
no problems were found. -/
theorem C4_exit_codes :
    check_exitcode 1000 = 255 ∧
    (∀ e, check_exitcode e = 0 ↔ e = 0) ∧
    (∀ mc, get_exitcode mc = min (mc / 2) 255) ∧
    (∀ mc, 2 ∣ mc → (get_exitcode mc = 0 ↔ mc = 0)) ∧
    (∀ mc, get_exitcode mc ≤ 255 ∧ check_exitcode mc ≤ 255) ∧
    (∀ (coders : List String) (c1 c2 : String), coders.Nodup → c1 ∈ coders →
      c2 ∈ coders → c1 ≠ c2 → countVisits coders c1 c2 = 2) := by
  refine ⟨by decide, ?_, fun mc => rfl, ?_, ?_, ?_⟩
  · intro e; simp only [check_exitcode]; omega
  · intro mc hdvd; simp only [get_exitcode]; omega
  · intro mc
    constructor
    · simp only [get_exitcode]; omega
    · simp only [check_exitcode]; omega
  · intro coders c1 c2 hnd h1 h2 hne
    rw [countVisits_eq _ _ _ hne,
        List.count_eq_one_of_mem hnd h1, List.count_eq_one_of_mem hnd h2]

/-- Witness for C4: the even-count zero-iff-zero part and the visited-twice
part at concrete inputs. -/
theorem C4_witness :
    (get_exitcode 6 = 0 ↔ 6 = 0) ∧ countVisits ["x", "y", "z"] "x" "z" = 2 :=
  ⟨C4_exit_codes.2.2.2.1 6 (by decide),
   C4_exit_codes.2.2.2.2.2 ["x", "y", "z"] "x" "z" (by decide) (by decide)
     (by decide) (by decide)⟩

/-- Counterexample to claim C5: Topic is not total and does not return the
none-sentinel for codes missing from the topic mapping: topic("cruft") raises
KeyError (modelled as `none`) instead of returning the sentinel. -/
theorem C5_counterexample :
    Codebook.topic "cruft" = none ∧ Codebook.topic "cruft" ≠ some NONETOPIC := by
  constructor
  · rfl
  · decide

/-- Claim C5 (amended): Topic returns the none-sentinel for auxiliary codes
(leading dash), recurses into the base code for `a-` and `h-` prefixes, and on
every other code performs a plain dictionary lookup that raises KeyError
(modelled as `none`) when the code is not a key of the topic mapping — it is
not total and never returns the sentinel for unmapped codes. -/
theorem C5_topic_amended :
    (∀ cs : List Char, Codebook.topicAux ('-' :: cs) = some NONETOPIC) ∧
    (∀ cs : List Char, Codebook.topicAux ('a' :: '-' :: cs) = Codebook.topicAux cs) ∧
    (∀ cs : List Char, Codebook.topicAux ('h' :: '-' :: cs) = Codebook.topicAux cs) ∧
    (∀ cs : List Char, cs.head? ≠ some '-' → (¬ ∃ t, cs = 'a' :: '-' :: t) →
      (¬ ∃ t, cs = 'h' :: '-' :: t) →
      Codebook.topicAux cs = theTopic.lookup cs.asString) ∧
    (∀ s : String, theTopic.lookup s = none ↔ ∀ p ∈ theTopic, p.1 ≠ s) := by
  refine ⟨?_, ?_, ?_, topicAux_default, fun s => lookup_none_iff theTopic s⟩
  · intro cs; rfl
  · intro cs; rfl
  · intro cs; rfl

/-- Witness for C5 (amended): the default-lookup case applied at `zzz`. -/
theorem C5_witness :
    Codebook.topicAux ("zzz".data) = theTopic.lookup ("zzz".data).asString :=
  C5_topic_amended.2.2.2.1 "zzz".data (by decide)
    (by rintro ⟨t, ht⟩; simp at ht) (by rintro ⟨t, ht⟩; simp at ht)

theorem contains_eq_false_of_not_mem {l : List String} {a : String} (h : a ∉ l) :
    l.contains a = false := by
  rw [Bool.eq_false_iff]
  intro hc
  exact h (List.elem_iff.mp hc)

/-- Claim C6: for every code C (a nonempty word-or-hyphen token) not defined in
the codebook in bare or suffix-bearing form, and every csuffix, exists_bare and
exists_with_suffix are false and wrong_coding_msg reports an "unknown code"
error; for a coding with a nonempty suffix the suffix check is delegated to the
suffix-checking branch and its result returned unchanged. -/
theorem C6_unknown_code :
    (∀ (cb : Codebook) (code : String) (csuffix : Option String),
      code.data ≠ [] → (∀ c ∈ code.data, isCodeChar c = true) →
      code ∉ cb.codes → (code ++ ":iu") ∉ cb.codes → (code ++ ":u") ∉ cb.codes →
      cb.exists_bare code = false ∧ cb.exists_with_suffix code = false ∧
        ∃ rest, wrong_coding_msg cb code csuffix = .ok (some ("unknown code" ++ rest))) ∧
    (∀ (cb : Codebook) (code suffix : String), suffix.data ≠ [] →
      (cb.exists_bare code = true ∨ cb.exists_with_suffix code = true) →
      wrong_coding_msg cb code (some (":" ++ suffix)) = .ok (check_suffix_part cb code suffix)) := by
  constructor
  · intro cb code csuffix hne hcode h1 h2 h3
    have hb : cb.exists_bare code = false := contains_eq_false_of_not_mem h1
    have hiu : cb.exists_with_iu_suffix code = false := contains_eq_false_of_not_mem h2
    have hu : cb.exists_with_u_suffix code = false := contains_eq_false_of_not_mem h3
    have hws : cb.exists_with_suffix code = false := by
      simp [Codebook.exists_with_suffix, hiu, hu]
    refine ⟨hb, hws, ?_⟩
    -- the last character of a wellformed code is a code char, hence not '?'
    have hlast : ∀ lc, code.data.getLast? = some lc → lc ≠ '?' := by
      intro lc hl heq
      have := hcode lc (List.mem_of_mem_getLast? hl)
      rw [heq] at this
      exact absurd this (by decide)
    obtain ⟨lc, hl⟩ : ∃ c, code.data.getLast? = some c := by
      cases hgl : code.data.getLast? with
      | none => exact absurd (List.getLast?_eq_none_iff.mp hgl) hne
      | some c => exact ⟨c, rfl⟩
    rcases csuffix with _ | cs
    · refine ⟨": \x27" ++ code ++ "\x27", ?_⟩
      simp only [wrong_coding_msg, if_pos rfl, hl]
      rw [if_neg (hlast lc hl)]
      simp [hb, hws]
    · by_cases hcs : cs.data.drop 1 = []
      · refine ⟨": \x27" ++ code ++ "\x27", ?_⟩
        have hemp : (⟨cs.data.drop 1⟩ : String) = "" := by rw [hcs]
        simp only [wrong_coding_msg, hemp, if_pos rfl, hl]
        rw [if_neg (hlast lc hl)]
        simp [hb, hws]
      · refine ⟨": \x27" ++ code ++ ":" ++ (⟨cs.data.drop 1⟩ : String) ++ "\x27", ?_⟩
        have hne2 : (⟨cs.data.drop 1⟩ : String) ≠ "" := by
          intro hc
          exact hcs (congrArg String.data hc)
        simp only [wrong_coding_msg, if_neg hne2]
        simp [check_suffix_part, hiu, hu, hb]
  · intro cb code suffix hne hex
    have hdata : ((":" ++ suffix : String)).data.drop 1 = suffix.data := rfl
    have heta : (⟨suffix.data⟩ : String) = suffix := by cases suffix; rfl
    have hnem : (⟨(((":" ++ suffix : String)).data.drop 1)⟩ : String) ≠ "" := by
      rw [hdata, heta]
      intro hc
      exact hne (congrArg String.data hc)
    have hsne : suffix ≠ "" := fun hc => hne (congrArg String.data hc)
    simp only [wrong_coding_msg, if_neg hnem, hdata, heta]
    rw [if_neg hsne]

/-- Witness for C6: the unknown code `zz` without suffix against the fixture
codebook, and delegation for known bare code `a` with suffix `x`. -/
theorem C6_witness :
    (∃ rest, wrong_coding_msg cbC2 "zz" none = .ok (some ("unknown code" ++ rest))) ∧
      wrong_coding_msg cbC2 "a" (some ":x") = .ok (check_suffix_part cbC2 "a" "x") :=
  ⟨(C6_unknown_code.1 cbC2 "zz" none (by decide) (by decide) (by decide) (by decide)
      (by decide)).2.2,
   C6_unknown_code.2 cbC2 "a" "x" (by decide) (Or.inl (by decide))⟩

/-- Claim C1: at an aligned position with matching sentences and no empty
annotation, if both coders' codings contain the ignore-code the comparator
takes the double-ignore rule (rule 3), emitting exactly one divergence and
continuing with the next position; if exactly one side contains it, the
position is suppressed (rule 4) with zero divergences, regardless of any other
difference, and the comparison also continues. -/
theorem C1_ignore_rules :
    ∀ (cb : Codebook) (mcd : Int) (as1 as2 : AnnotatedSentence)
      (r1 r2 : List AnnotatedSentence) (i : Nat),
      as1.sentence = as2.sentence →
      is_empty_annot as1.annot = false →
      is_empty_annot as2.annot = false →
      ((IGNORECODE ∈ codings_of_stripped as1.annot ∧
        IGNORECODE ∈ codings_of_stripped as2.annot) →
        stepOf cb mcd as1 as2 = .doubleIgnore ∧ divCount (stepOf cb mcd as1 as2) = 1 ∧
          compareSteps cb mcd i (as1 :: r1) (as2 :: r2) =
            (i, Step.doubleIgnore) :: compareSteps cb mcd (i + 1) r1 r2) ∧
      (((IGNORECODE ∈ codings_of_stripped as1.annot ∧
         IGNORECODE ∉ codings_of_stripped as2.annot) ∨
        (IGNORECODE ∉ codings_of_stripped as1.annot ∧
         IGNORECODE ∈ codings_of_stripped as2.annot)) →
        stepOf cb mcd as1 as2 = .suppressed ∧ divCount (stepOf cb mcd as1 as2) = 0 ∧
          compareSteps cb mcd i (as1 :: r1) (as2 :: r2) =
            (i, Step.suppressed) :: compareSteps cb mcd (i + 1) r1 r2) := by
  intro cb mcd as1 as2 r1 r2 i hsent he1 he2
  constructor
  · rintro ⟨hm1, hm2⟩
    have hst : stepOf cb mcd as1 as2 = .doubleIgnore := by
      simp only [stepOf]
      rw [if_neg (by simp [hsent]), if_neg (by simp [he1, he2]), if_pos ⟨hm1, hm2⟩]
    refine ⟨hst, by rw [hst]; rfl, ?_⟩
    simp only [compareSteps]
    rw [hst]
    simp [isBreak]
  · intro hone
    have hnotboth : ¬ (IGNORECODE ∈ codings_of_stripped as1.annot ∧
        IGNORECODE ∈ codings_of_stripped as2.annot) := by
      rcases hone with ⟨_, h2⟩ | ⟨h1, _⟩
      · exact fun hc => h2 hc.2
      · exact fun hc => h1 hc.1
    have hor : IGNORECODE ∈ codings_of_stripped as1.annot ∨
        IGNORECODE ∈ codings_of_stripped as2.annot := by
      rcases hone with ⟨h1, _⟩ | ⟨_, h2⟩
      · exact Or.inl h1
      · exact Or.inr h2
    have hst : stepOf cb mcd as1 as2 = .suppressed := by
      simp only [stepOf]
      rw [if_neg (by simp [hsent]), if_neg (by simp [he1, he2]), if_neg hnotboth,
          if_pos hor]
    refine ⟨hst, by rw [hst]; rfl, ?_⟩
    simp only [compareSteps]
    rw [hst]
    simp [isBreak]

/-- Witness for C1: rule 3 on a double ignore-code pair, rule 4 when only the
second coder used the ignore-code. -/
theorem C1_witness :
    stepOf cbC2 2 ⟨1, "s", "\x7b\x7b-ignorediff\x7d\x7d"⟩
        ⟨1, "s", "\x7b\x7b-ignorediff\x7d\x7d"⟩ = Step.doubleIgnore ∧
      stepOf cbC2 2 ⟨1, "s", "\x7b\x7ba\x7d\x7d"⟩
        ⟨1, "s", "\x7b\x7b-ignorediff\x7d\x7d"⟩ = Step.suppressed :=
  ⟨((C1_ignore_rules cbC2 2 ⟨1, "s", "\x7b\x7b-ignorediff\x7d\x7d"⟩
      ⟨1, "s", "\x7b\x7b-ignorediff\x7d\x7d"⟩ [] [] 0 rfl (by decide) (by decide)).1
      ⟨by decide, by decide⟩).1,
   ((C1_ignore_rules cbC2 2 ⟨1, "s", "\x7b\x7ba\x7d\x7d"⟩
      ⟨1, "s", "\x7b\x7b-ignorediff\x7d\x7d"⟩ [] [] 0 rfl (by decide) (by decide)).2
      (Or.inr ⟨by decide, by decide⟩)).1⟩

theorem keyed_nodup_val_eq {α : Type} :
    ∀ (m : List (String × α)) (c : String) (v w : α),
      (m.map Prod.fst).Nodup → (c, v) ∈ m → (c, w) ∈ m → v = w := by
  intro m
  induction m with
  | nil => intro c v w _ hv; cases hv
  | cons a t ih =>
    intro c v w hnd hv hw
    have hnd' : (a.1 :: t.map Prod.fst).Nodup := by simpa using hnd
    have hnotin : a.1 ∉ t.map Prod.fst := (List.nodup_cons.mp hnd').1
    rcases List.mem_cons.mp hv with hv1 | hv2 <;> rcases List.mem_cons.mp hw with hw1 | hw2
    · have := hv1.trans hw1.symm
      exact congrArg Prod.snd this
    · exfalso
      apply hnotin
      rw [← hv1]
      exact List.mem_map.mpr ⟨(c, w), hw2, rfl⟩
    · exfalso
      apply hnotin
      rw [← hw1]
      exact List.mem_map.mpr ⟨(c, v), hv2, rfl⟩
    · exact ih c v w (List.nodup_cons.mp hnd').2 hv2 hw2

theorem suffixDecision_fst (mcd : Int) (p : String × Quad) (q : String × IUKind)
    (h : suffixDecision mcd p = some q) : q.1 = p.1 := by
  simp only [suffixDecision] at h
  split_ifs at h <;> simp at h <;> exact (congrArg Prod.fst h.symm)

/-- Claim C2: for positions passing rules 1-5, check_suffixes emits a
divergence for a code of the iucount map exactly when the absolute difference
of the i-counts or of the u-counts exceeds maxcountdiff, naming which kind
diverges (both, informativeness, understandability); in particular for
annotations `a, b:i2` vs `a, b:i5` with maxcountdiff 2 exactly one divergence
is emitted, naming b and informativeness. -/
theorem C2_suffix_count_divergences :
    (∀ (mcd : Int) (m : List (String × Quad)) (code : String) (i1 u1 i2 u2 : Nat),
      (m.map Prod.fst).Nodup → (code, (i1, u1, i2, u2)) ∈ m →
      ((|(i1 : Int) - (i2 : Int)| > mcd ∨ |(u1 : Int) - (u2 : Int)| > mcd →
        (code,
          if |(i1 : Int) - (i2 : Int)| > mcd ∧ |(u1 : Int) - (u2 : Int)| > mcd then
            IUKind.both
          else if |(i1 : Int) - (i2 : Int)| > mcd then IUKind.inform
          else IUKind.underst) ∈ check_suffixes mcd m) ∧
       (¬ (|(i1 : Int) - (i2 : Int)| > mcd ∨ |(u1 : Int) - (u2 : Int)| > mcd) →
        ∀ k, (code, k) ∉ check_suffixes mcd m))) ∧
    (∀ (mcd : Int) (m : List (String × Quad)) (code : String) (k : IUKind),
      (code, k) ∈ check_suffixes mcd m →
      ∃ q, (code, q) ∈ m ∧ suffixDecision mcd (code, q) = some (code, k)) ∧
    (stepOf cbC2 2 ⟨1, "s", "\x7b\x7ba, b:i2\x7d\x7d"⟩ ⟨1, "s", "\x7b\x7ba, b:i5\x7d\x7d"⟩ =
        .suffixDiff [("b", IUKind.inform)] ∧
      divCount (stepOf cbC2 2 ⟨1, "s", "\x7b\x7ba, b:i2\x7d\x7d"⟩
        ⟨1, "s", "\x7b\x7ba, b:i5\x7d\x7d"⟩) = 1) := by
  refine ⟨?_, ?_, by decide, by decide⟩
  · intro mcd m code i1 u1 i2 u2 hnd hmem
    constructor
    · intro hdiv
      have hdec : suffixDecision mcd (code, (i1, u1, i2, u2)) =
          some (code,
            if |(i1 : Int) - (i2 : Int)| > mcd ∧ |(u1 : Int) - (u2 : Int)| > mcd then
              IUKind.both
            else if |(i1 : Int) - (i2 : Int)| > mcd then IUKind.inform
            else IUKind.underst) := by
        by_cases hi : |(i1 : Int) - (i2 : Int)| > mcd <;>
          by_cases hu : |(u1 : Int) - (u2 : Int)| > mcd
        · simp [suffixDecision, hi, hu]
        · simp [suffixDecision, hi, hu]
        · simp [suffixDecision, hi, hu]
        · exact absurd hdiv (by simp [hi, hu])
      exact List.mem_filterMap.mpr ⟨(code, (i1, u1, i2, u2)), hmem, hdec⟩
    · intro hno k hk
      obtain ⟨p, hpmem, hpdec⟩ := List.mem_filterMap.mp hk
      have hfst : code = p.1 := suffixDecision_fst mcd p (code, k) hpdec
      have hq : p.2 = (i1, u1, i2, u2) := by
        apply keyed_nodup_val_eq m code p.2 (i1, u1, i2, u2) hnd _ hmem
        rw [hfst]
        exact hpmem
      push_neg at hno
      have : suffixDecision mcd p = none := by
        have hp : p = (code, (i1, u1, i2, u2)) := by
          rw [Prod.ext_iff]
          exact ⟨hfst.symm, hq⟩
        rw [hp]
        simp [suffixDecision, not_lt.mpr hno.1, not_lt.mpr hno.2]
      rw [this] at hpdec
      cases hpdec
  · intro mcd m code k hk
    obtain ⟨p, hpmem, hpdec⟩ := List.mem_filterMap.mp hk
    have hfst : code = p.1 := suffixDecision_fst mcd p (code, k) hpdec
    refine ⟨p.2, ?_, ?_⟩
    · rw [hfst]; exact (by simpa using hpmem)
    · rw [hfst] at hpdec ⊢
      rw [Prod.mk.eta]
      exact hpdec

/-- Witness for C2: the divergence for code b with i-counts 2 and 5 at
maxcountdiff 2 is in the emitted list. -/
theorem C2_witness :
    ("b", IUKind.inform) ∈ check_suffixes 2 [("b", (2, 0, 5, 0))] :=
  (((C2_suffix_count_divergences.1 2 [("b", (2, 0, 5, 0))] "b" 2 0 5 0
    (by decide) (by decide)).1) (by decide))

theorem stepOf_nonbreak (cb : Codebook) (mcd : Int) (a1 a2 : AnnotatedSentence)
    (hs : a1.sentence = a2.sentence) (he1 : is_empty_annot a1.annot = false)
    (he2 : is_empty_annot a2.annot = false) :
    isBreak (stepOf cb mcd a1 a2) = false ∧ stepOf cb mcd a1 a2 ≠ Step.misalign := by
  simp only [stepOf]
  rw [if_neg (by simp [hs]), if_neg (by simp [he1, he2])]
  split_ifs <;> simp [isBreak]

/-- Claim C3 (amended): if position i is the first position at which the two
sentence texts differ AND no earlier position has an empty annotation on
either side, the comparator emits exactly one misalignment divergence, at
position i, and processes no position after i; without the no-earlier-empty
proviso the comparison can instead stop early at rule 2 (see the
counterexample). -/
theorem C3_misalignment_amended :
    ∀ (cb : Codebook) (mcd : Int) (i : Nat) (s1 s2 : List AnnotatedSentence) (k : Nat)
      (h1 : i < s1.length) (h2 : i < s2.length),
      (∀ j (hj : j < i),
        (s1.get ⟨j, lt_trans hj h1⟩).sentence = (s2.get ⟨j, lt_trans hj h2⟩).sentence) →
      (∀ j (hj : j < i),
        is_empty_annot (s1.get ⟨j, lt_trans hj h1⟩).annot = false ∧
          is_empty_annot (s2.get ⟨j, lt_trans hj h2⟩).annot = false) →
      (s1.get ⟨i, h1⟩).sentence ≠ (s2.get ⟨i, h2⟩).sentence →
      ∃ pref, compareSteps cb mcd k s1 s2 = pref ++ [(k + i, Step.misalign)] ∧
        ∀ p ∈ pref, k ≤ p.1 ∧ p.1 < k + i ∧ p.2 ≠ Step.misalign ∧ isBreak p.2 = false := by
  intro cb mcd i
  induction i with
  | zero =>
    intro s1 s2 k h1 h2 hsents hemps hne
    match s1, s2, h1, h2 with
    | a1 :: r1, a2 :: r2, h1, h2 =>
      have hne0 : a1.sentence ≠ a2.sentence := hne
      have hst : stepOf cb mcd a1 a2 = Step.misalign := by
        simp only [stepOf]
        rw [if_pos hne0]
      refine ⟨[], ?_, by simp⟩
      simp only [compareSteps]
      rw [hst]
      simp [isBreak]
  | succ i ih =>
    intro s1 s2 k h1 h2 hsents hemps hne
    match s1, s2, h1, h2 with
    | a1 :: r1, a2 :: r2, h1, h2 =>
      have hs0 : a1.sentence = a2.sentence := hsents 0 (Nat.succ_pos i)
      have he0 := hemps 0 (Nat.succ_pos i)
      obtain ⟨hnb, hnm⟩ := stepOf_nonbreak cb mcd a1 a2 hs0 he0.1 he0.2
      have h1' : i < r1.length := Nat.lt_of_succ_lt_succ h1
      have h2' : i < r2.length := Nat.lt_of_succ_lt_succ h2
      obtain ⟨pref, htr, hpref⟩ :=
        ih r1 r2 (k + 1) h1' h2'
          (fun j hj => hsents (j + 1) (Nat.succ_lt_succ hj))
          (fun j hj => hemps (j + 1) (Nat.succ_lt_succ hj))
          hne
      refine ⟨(k, stepOf cb mcd a1 a2) :: pref, ?_, ?_⟩
      · simp only [compareSteps]
        rw [if_neg (by simp [hnb])]
        rw [htr]
        have harith : k + 1 + i = k + (i + 1) := by omega
        simp [harith]
      · intro p hp
        rcases List.mem_cons.mp hp with hp0 | hpt
        · subst hp0
          exact ⟨le_refl k, by omega, hnm, hnb⟩
        · obtain ⟨ha, hb, hc, hd⟩ := hpref p hpt
          exact ⟨by omega, by omega, hc, hd⟩

/-- Counterexample to claim C3: position 1 is the first position where the
sentence texts differ, but because position 0 carries an empty annotation the
comparator stops there with an incomplete-annotation divergence and never
emits the misalignment divergence at position 1. -/
theorem C3_counterexample :
    (s1C3.get ⟨0, by decide⟩).sentence = (s2C3.get ⟨0, by decide⟩).sentence ∧
    (s1C3.get ⟨1, by decide⟩).sentence ≠ (s2C3.get ⟨1, by decide⟩).sentence ∧
    compareSteps cbC2 2 0 s1C3 s2C3 = [(0, Step.incomplete)] := by
  refine ⟨by decide, by decide, by decide⟩

/-- Witness for C3 (amended): the aligned pair with sentence texts `t` vs `u`
first differing at position 1 and no empty annotations. -/
theorem C3_witness :
    ∃ pref, compareSteps cbC2 2 0 s1C3w s2C3w = pref ++ [(0 + 1, Step.misalign)] ∧
      ∀ p ∈ pref, 0 ≤ p.1 ∧ p.1 < 0 + 1 ∧ p.2 ≠ Step.misalign ∧ isBreak p.2 = false :=
  C3_misalignment_amended cbC2 2 1 s1C3w s2C3w 0 (by decide) (by decide)
    (by intro j hj; have hj0 : j = 0 := by omega
        subst hj0; rfl)
    (by intro j hj; have hj0 : j = 0 := by omega
        subst hj0; exact ⟨rfl, rfl⟩)
    (by decide)

theorem dinsert_dlookup {α : Type} (k : String) (v : α) (m : List (String × α)) (c : String) :
    dlookup c (dinsert k v m) = if k = c then some v else dlookup c m := by
  induction m with
  | nil =>
    simp only [dinsert, dlookup]
  | cons a t ih =>
    obtain ⟨k', v'⟩ := a
    simp only [dinsert]
    by_cases h1 : k' = k
    · subst h1
      simp only [if_pos rfl, dlookup]
      by_cases h2 : k' = c <;> simp [h2]
    · rw [if_neg h1]
      simp only [dlookup, ih]
      by_cases h2 : k' = c
      · subst h2
        rw [if_pos rfl, if_neg (fun hc => h1 hc.symm), if_pos rfl]
      · rw [if_neg h2]
        by_cases h3 : k = c
        · rw [if_pos h3, if_pos h3]
        · rw [if_neg h3, if_neg h3, if_neg h2]

theorem split_suffix_error (cs : String) (e : PyErr) (h : split_suffix cs = .error e) :
    e = .attributeError := by
  simp only [split_suffix] at h
  by_cases hd : cs.data = []
  · rw [if_pos hd] at h; cases h
  · rw [if_neg hd] at h
    cases hfm : fullmatchSS cs.data with
    | none =>
      rw [hfm] at h
      injection h with he
      exact he.symm
    | some g =>
      rw [hfm] at h
      obtain ⟨g1, g2⟩ := g
      cases h

theorem cwsLoop1_error (cb : Codebook) :
    ∀ (l : List (String × String)) (m : List (String × IUVal)) (e : PyErr),
      cwsLoop1 cb l m = .error e → e = .attributeError := by
  intro l
  induction l with
  | nil => intro m e h; cases h
  | cons p t ih =>
    intro m e h
    obtain ⟨code, cs⟩ := p
    simp only [cwsLoop1] at h
    by_cases hsb : cb.exists_with_suffix code
    · rw [if_pos hsb] at h
      cases hsp : split_suffix cs with
      | error e2 =>
        rw [hsp] at h
        injection h with he
        rw [← he]
        exact split_suffix_error cs e2 hsp
      | ok pr =>
        rw [hsp] at h
        exact ih _ e h
    · rw [if_neg hsb] at h
      exact ih _ e h

/-- All values of a dict are 2-tuples. -/
def allInl (m : List (String × IUVal)) : Prop :=
  ∀ c v, dlookup c m = some v → ∃ p, v = Sum.inl p

theorem cwsLoop1_allInl (cb : Codebook) :
    ∀ (l : List (String × String)) (m m' : List (String × IUVal)),
      allInl m → cwsLoop1 cb l m = .ok m' → allInl m' := by
  intro l
  induction l with
  | nil => intro m m' hm h; cases h; exact hm
  | cons p t ih =>
    intro m m' hm h
    obtain ⟨code, cs⟩ := p
    simp only [cwsLoop1] at h
    by_cases hsb : cb.exists_with_suffix code
    · rw [if_pos hsb] at h
      cases hsp : split_suffix cs with
      | error e2 => rw [hsp] at h; cases h
      | ok pr =>
        rw [hsp] at h
        refine ih _ _ ?_ h
        intro c v hv
        rw [dinsert_dlookup] at hv
        by_cases hc : code = c
        · rw [if_pos hc] at hv
          injection hv with hv2
          exact ⟨pr, hv2.symm⟩
        · rw [if_neg hc] at hv
          exact hm c v hv
    · rw [if_neg hsb] at h
      exact ih _ _ hm h

theorem cwsLoop1_dom_sub (cb : Codebook) :
    ∀ (l : List (String × String)) (m m' : List (String × IUVal)),
      cwsLoop1 cb l m = .ok m' →
      ∀ c, dlookup c m' ≠ none → dlookup c m ≠ none ∨ c ∈ l.map Prod.fst := by
  intro l
  induction l with
  | nil => intro m m' h c hc; cases h; exact Or.inl hc
  | cons p t ih =>
    intro m m' h c hc
    obtain ⟨code, cs⟩ := p
    simp only [cwsLoop1] at h
    by_cases hsb : cb.exists_with_suffix code
    · rw [if_pos hsb] at h
      cases hsp : split_suffix cs with
      | error e2 => rw [hsp] at h; cases h
      | ok pr =>
        rw [hsp] at h
        rcases ih _ _ h c hc with hin | hl
        · rw [dinsert_dlookup] at hin
          by_cases heq : code = c
          · exact Or.inr (by simp [← heq])
          · rw [if_neg heq] at hin
            exact Or.inl hin
        · exact Or.inr (by simp [hl])
    · rw [if_neg hsb] at h
      rcases ih _ _ h c hc with hin | hl
      · exact Or.inl hin
      · exact Or.inr (by simp [hl])

theorem cwsLoop1_dom_mem (cb : Codebook) :
    ∀ (l : List (String × String)) (m : List (String × IUVal))
      (m' : List (String × IUVal)),
      cwsLoop1 cb l m = .ok m' →
      ∀ c cs, (c, cs) ∈ l → cb.exists_with_suffix c = true → dlookup c m' ≠ none := by
  intro l
  induction l with
  | nil => intro m m' h c cs hmem; cases hmem
  | cons p t ih =>
    intro m m' h c cs hmem hsb2
    obtain ⟨code, cs0⟩ := p
    simp only [cwsLoop1] at h
    rcases List.mem_cons.mp hmem with h0 | hmem2
    · -- the head is (c, cs): code = c
      have hcode : code = c := congrArg Prod.fst h0.symm
      subst hcode
      rw [if_pos hsb2] at h
      cases hsp : split_suffix cs0 with
      | error e2 => rw [hsp] at h; cases h
      | ok pr =>
        rw [hsp] at h
        -- key is present after dinsert and never removed
        have : ∀ m1 m2, cwsLoop1 cb t m1 = .ok m2 →
            dlookup code m1 ≠ none → dlookup code m2 ≠ none := by
          clear h ih hmem
          intro m1 m2 hh
          induction t generalizing m1 m2 with
          | nil => intro hne; cases hh; exact hne
          | cons q r ihr =>
            obtain ⟨cq, csq⟩ := q
            simp only [cwsLoop1] at hh
            by_cases hsbq : cb.exists_with_suffix cq
            · rw [if_pos hsbq] at hh
              cases hspq : split_suffix csq with
              | error e3 => rw [hspq] at hh; cases hh
              | ok prq =>
                rw [hspq] at hh
                intro hne
                refine ihr _ _ hh ?_
                rw [dinsert_dlookup]
                by_cases hqc : cq = code
                · rw [if_pos hqc]; simp
                · rw [if_neg hqc]; exact hne
            · rw [if_neg hsbq] at hh
              exact ihr _ _ hh
        refine this _ _ h ?_
        rw [dinsert_dlookup, if_pos rfl]
        simp
    · -- in the tail
      by_cases hsb : cb.exists_with_suffix code
      · rw [if_pos hsb] at h
        cases hsp : split_suffix cs0 with
        | error e2 => rw [hsp] at h; cases h
        | ok pr =>
          rw [hsp] at h
          exact ih _ _ h c cs hmem2 hsb2
      · rw [if_neg hsb] at h
        exact ih _ _ h c cs hmem2 hsb2

theorem cwsLoop2_ok_inv (cb : Codebook) :
    ∀ (l : List (String × String)) (m r : List (String × IUVal)),
      cwsLoop2 cb l m = .ok r →
      (∀ p ∈ l, cb.exists_with_suffix p.1 = true →
        ∃ v, dlookup p.1 m = some (.inl v)) ∧ (sCodesOfList cb l).Nodup := by
  intro l
  induction l with
  | nil =>
    intro m r h
    refine ⟨?_, by simp [sCodesOfList]⟩
    intro p hp
    cases hp
  | cons p t ih =>
    intro m r h
    obtain ⟨code, cs⟩ := p
    simp only [cwsLoop2] at h
    by_cases hsb : cb.exists_with_suffix code
    · rw [if_pos hsb] at h
      cases hlk : dlookup code m with
      | none => rw [hlk] at h; cases h
      | some v =>
        rw [hlk] at h
        cases v with
        | inr q => cases h
        | inl pr =>
          obtain ⟨i1, u1⟩ := pr
          cases hsp : split_suffix cs with
          | error e2 => rw [hsp] at h; cases h
          | ok pr2 =>
            obtain ⟨i2, u2⟩ := pr2
            rw [hsp] at h
            obtain ⟨ihv, ihnd⟩ := ih _ _ h
            constructor
            · intro q hq hsbq
              rcases List.mem_cons.mp hq with h0 | hmem2
              · rw [h0]
                exact ⟨(i1, u1), hlk⟩
              · -- q in tail: its lookup in the updated dict is inl, so q.1 ≠ code
                obtain ⟨v2, hv2⟩ := ihv q hmem2 hsbq
                rw [dinsert_dlookup] at hv2
                by_cases hqc : code = q.1
                · rw [if_pos hqc] at hv2
                  cases hv2
                · rw [if_neg hqc] at hv2
                  exact ⟨v2, hv2⟩
            · have hcn : code ∉ sCodesOfList cb t := by
                intro hcin
                obtain ⟨q, hqmem, hqdec⟩ := List.mem_filterMap.mp hcin
                have hqsb : cb.exists_with_suffix q.1 = true := by
                  by_cases hh : cb.exists_with_suffix q.1
                  · exact hh
                  · rw [if_neg hh] at hqdec; cases hqdec
                rw [if_pos hqsb] at hqdec
                injection hqdec with hq1
                obtain ⟨v2, hv2⟩ := ihv q hqmem hqsb
                rw [dinsert_dlookup, hq1, if_pos rfl] at hv2
                cases hv2
              have : sCodesOfList cb ((code, cs) :: t) = code :: sCodesOfList cb t := by
                simp [sCodesOfList, hsb]
              rw [this]
              exact List.nodup_cons.mpr ⟨hcn, ihnd⟩
    · rw [if_neg hsb] at h
      obtain ⟨ihv, ihnd⟩ := ih _ _ h
      constructor
      · intro q hq hsbq
        rcases List.mem_cons.mp hq with h0 | hmem2
        · rw [h0] at hsbq
          exact absurd hsbq (by simp [hsb])
        · exact ihv q hmem2 hsbq
      · have : sCodesOfList cb ((code, cs) :: t) = sCodesOfList cb t := by
          simp [sCodesOfList, hsb]
        rw [this]
        exact ihnd

theorem cwsLoop2_pres_inr (cb : Codebook) :
    ∀ (l : List (String × String)) (m r : List (String × IUVal)),
      cwsLoop2 cb l m = .ok r →
      ∀ c q, dlookup c m = some (.inr q) → dlookup c r = some (.inr q) := by
  intro l
  induction l with
  | nil => intro m r h c q hq; cases h; exact hq
  | cons p t ih =>
    intro m r h c q hq
    obtain ⟨code, cs⟩ := p
    simp only [cwsLoop2] at h
    by_cases hsb : cb.exists_with_suffix code
    · rw [if_pos hsb] at h
      cases hlk : dlookup code m with
      | none => rw [hlk] at h; cases h
      | some v =>
        rw [hlk] at h
        cases v with
        | inr q2 => cases h
        | inl pr =>
          obtain ⟨i1, u1⟩ := pr
          cases hsp : split_suffix cs with
          | error e2 => rw [hsp] at h; cases h
          | ok pr2 =>
            obtain ⟨i2, u2⟩ := pr2
            rw [hsp] at h
            have hne : code ≠ c := by
              intro heq
              rw [heq, hq] at hlk
              cases hlk
            refine ih _ _ h c q ?_
            rw [dinsert_dlookup, if_neg hne]
            exact hq
    · rw [if_neg hsb] at h
      exact ih _ _ h c q hq

theorem cwsLoop2_quads (cb : Codebook) :
    ∀ (l : List (String × String)) (m r : List (String × IUVal)),
      cwsLoop2 cb l m = .ok r →
      ∀ c ∈ sCodesOfList cb l, ∃ q, dlookup c r = some (.inr q) := by
  intro l
  induction l with
  | nil => intro m r h c hc; simp [sCodesOfList] at hc
  | cons p t ih =>
    intro m r h c hc
    obtain ⟨code, cs⟩ := p
    simp only [cwsLoop2] at h
    by_cases hsb : cb.exists_with_suffix code
    · rw [if_pos hsb] at h
      cases hlk : dlookup code m with
      | none => rw [hlk] at h; cases h
      | some v =>
        rw [hlk] at h
        cases v with
        | inr q2 => cases h
        | inl pr =>
          obtain ⟨i1, u1⟩ := pr
          cases hsp : split_suffix cs with
          | error e2 => rw [hsp] at h; cases h
          | ok pr2 =>
            obtain ⟨i2, u2⟩ := pr2
            rw [hsp] at h
            have hsc : sCodesOfList cb ((code, cs) :: t) = code :: sCodesOfList cb t := by
              simp [sCodesOfList, hsb]
            rw [hsc] at hc
            rcases List.mem_cons.mp hc with h0 | hct
            · subst h0
              refine ⟨(i1, u1, i2, u2), ?_⟩
              refine cwsLoop2_pres_inr cb t _ _ h c (i1, u1, i2, u2) ?_
              rw [dinsert_dlookup, if_pos rfl]
            · exact ih _ _ h c hct
    · rw [if_neg hsb] at h
      have hsc : sCodesOfList cb ((code, cs) :: t) = sCodesOfList cb t := by
        simp [sCodesOfList, hsb]
      rw [hsc] at hc
      exact ih _ _ h c hc

theorem cwsLoop2_error (cb : Codebook) :
    ∀ (l : List (String × String)) (m : List (String × IUVal)) (e : PyErr),
      (∀ c ∈ sCodesOfList cb l, ∃ v, dlookup c m = some (.inl v)) →
      (sCodesOfList cb l).Nodup →
      cwsLoop2 cb l m = .error e → e = .attributeError := by
  intro l
  induction l with
  | nil => intro m e _ _ h; cases h
  | cons p t ih =>
    intro m e hall hnd h
    obtain ⟨code, cs⟩ := p
    simp only [cwsLoop2] at h
    by_cases hsb : cb.exists_with_suffix code
    · have hsc : sCodesOfList cb ((code, cs) :: t) = code :: sCodesOfList cb t := by
        simp [sCodesOfList, hsb]
      rw [hsc] at hall hnd
      rw [if_pos hsb] at h
      obtain ⟨v0, hv0⟩ := hall code (List.mem_cons_self _ _)
      rw [hv0] at h
      cases hsp : split_suffix cs with
      | error e2 =>
        rw [hsp] at h
        injection h with he
        rw [← he]
        exact split_suffix_error cs e2 hsp
      | ok pr2 =>
        obtain ⟨i2, u2⟩ := pr2
        rw [hsp] at h
        obtain ⟨hcn, hnd2⟩ := List.nodup_cons.mp hnd
        refine ih _ e ?_ hnd2 h
        intro c hc
        have hne : code ≠ c := fun heq => hcn (heq ▸ hc)
        obtain ⟨v2, hv2⟩ := hall c (List.mem_cons_of_mem _ hc)
        refine ⟨v2, ?_⟩
        rw [dinsert_dlookup, if_neg hne]
        exact hv2
    · have hsc : sCodesOfList cb ((code, cs) :: t) = sCodesOfList cb t := by
        simp [sCodesOfList, hsb]
      rw [hsc] at hall hnd
      rw [if_neg hsb] at h
      exact ih _ e hall hnd h

/-- Claim C9 (amended): codes_with_suffixes returns normally only under the
precondition (every suffix-bearing code of annotation 2 occurs in
annotation 1, occurs at most once in annotation 2, no name:digits coding in
annotation 2); under the precondition the missing-key, tuple-unpacking and
assertion failure branches are unreachable (only the suffix-parse
AttributeError can still occur); and in a returned map every suffix-bearing
code occurring in annotation 2 maps to a 4-tuple — codes occurring only in
annotation 1 keep their 2-tuple (see the counterexample against the original
claim). -/
theorem C9_cws_amended :
    (∀ (cb : Codebook) (a1 a2 : String) (m : List (String × IUVal)),
      codes_with_suffixes cb a1 a2 = .ok m → cwsPre cb a1 a2) ∧
    (∀ (cb : Codebook) (a1 a2 : String) (e : PyErr),
      cwsPre cb a1 a2 → codes_with_suffixes cb a1 a2 = .error e → e = .attributeError) ∧
    (∀ (cb : Codebook) (a1 a2 : String) (m : List (String × IUVal)),
      codes_with_suffixes cb a1 a2 = .ok m →
      ∀ c ∈ sCodesOf cb a2, ∃ q, dlookup c m = some (Sum.inr q)) := by
  refine ⟨?_, ?_, ?_⟩
  · intro cb a1 a2 m h
    simp only [codes_with_suffixes] at h
    cases hL1 : cwsLoop1 cb (scanCodings a1) [] with
    | error e => rw [hL1] at h; cases h
    | ok m1 =>
      rw [hL1] at h
      dsimp only at h
      cases hL2 : cwsLoop2 cb (scanCodings a2) m1 with
      | error e => rw [hL2] at h; cases h
      | ok m2 =>
        rw [hL2] at h
        dsimp only at h
        by_cases hncd : hasNCD a2.data
        · rw [if_pos hncd] at h; cases h
        · rw [if_neg hncd] at h
          obtain ⟨hinv, hnd⟩ := cwsLoop2_ok_inv cb _ _ _ hL2
          refine ⟨?_, hnd, by simpa using hncd⟩
          intro c hc
          obtain ⟨p, hpmem, hpdec⟩ := List.mem_filterMap.mp hc
          have hpsb : cb.exists_with_suffix p.1 = true := by
            by_cases hh : cb.exists_with_suffix p.1
            · exact hh
            · rw [if_neg hh] at hpdec; cases hpdec
          rw [if_pos hpsb] at hpdec
          injection hpdec with hp1
          obtain ⟨v, hv⟩ := hinv p hpmem hpsb
          rw [hp1] at hv
          have hvne : dlookup c m1 ≠ none := by rw [hv]; simp
          rcases cwsLoop1_dom_sub cb _ _ _ hL1 c hvne with hnil | hmem1
          · exact absurd rfl hnil
          · exact hmem1
  · intro cb a1 a2 e hpre h
    obtain ⟨hP1, hP2, hP3⟩ := hpre
    simp only [codes_with_suffixes] at h
    cases hL1 : cwsLoop1 cb (scanCodings a1) [] with
    | error e1 =>
      rw [hL1] at h
      injection h with he
      rw [← he]
      exact cwsLoop1_error cb _ _ _ hL1
    | ok m1 =>
      rw [hL1] at h
      dsimp only at h
      have hallm1 : ∀ c ∈ sCodesOfList cb (scanCodings a2),
          ∃ v, dlookup c m1 = some (.inl v) := by
        intro c hc
        have hsb : cb.exists_with_suffix c = true := by
          obtain ⟨p, hpmem, hpdec⟩ := List.mem_filterMap.mp hc
          by_cases hh : cb.exists_with_suffix p.1
          · rw [if_pos hh] at hpdec
            injection hpdec with hp1
            rw [← hp1]
            exact hh
          · rw [if_neg hh] at hpdec; cases hpdec
        have hmem1 : c ∈ (scanCodings a1).map Prod.fst := hP1 c hc
        obtain ⟨p1, hp1mem, hp1eq⟩ := List.mem_map.mp hmem1
        have hne : dlookup c m1 ≠ none := by
          refine cwsLoop1_dom_mem cb _ _ _ hL1 c p1.2 ?_ hsb
          rw [← hp1eq, Prod.mk.eta]
          exact hp1mem
        cases hv : dlookup c m1 with
        | none => exact absurd hv hne
        | some v =>
          obtain ⟨pp, hppeq⟩ :=
            cwsLoop1_allInl cb _ _ _ (by intro c2 v2 hh; cases hh) hL1 c v hv
          exact ⟨pp, congrArg some hppeq⟩
      cases hL2 : cwsLoop2 cb (scanCodings a2) m1 with
      | error e2 =>
        rw [hL2] at h
        injection h with he
        rw [← he]
        exact cwsLoop2_error cb _ _ _ hallm1 hP2 hL2
      | ok m2 =>
        rw [hL2] at h
        dsimp only at h
        rw [if_neg (by simp [hP3])] at h
        cases h
  · intro cb a1 a2 m h
    simp only [codes_with_suffixes] at h
    cases hL1 : cwsLoop1 cb (scanCodings a1) [] with
    | error e => rw [hL1] at h; cases h
    | ok m1 =>
      rw [hL1] at h
      dsimp only at h
      cases hL2 : cwsLoop2 cb (scanCodings a2) m1 with
      | error e => rw [hL2] at h; cases h
      | ok m2 =>
        rw [hL2] at h
        dsimp only at h
        by_cases hncd : hasNCD a2.data
        · rw [if_pos hncd] at h; cases h
        · rw [if_neg hncd] at h
          injection h with hm
          rw [← hm]
          exact cwsLoop2_quads cb _ _ _ hL2

/-- Counterexample to claim C9: with code b suffix-bearing, annotation 1
containing `b:i1` and annotation 2 containing only `a`, the precondition holds
and the function returns normally, yet the value stored for b is a 2-tuple,
not a 4-tuple. -/
theorem C9_counterexample :
    cwsPre cbC2 "\x7b\x7bb:i1\x7d\x7d" "\x7b\x7ba\x7d\x7d" ∧
      codes_with_suffixes cbC2 "\x7b\x7bb:i1\x7d\x7d" "\x7b\x7ba\x7d\x7d" =
        .ok [("b", Sum.inl (1, 0))] ∧
      isQuad (Sum.inl (1, 0)) = false := by
  refine ⟨⟨by decide, by decide, by decide⟩, by rfl, by rfl⟩

/-- Witness for C9 (amended): both annotations carry `b` with a suffix, so the
returned map binds b to a 4-tuple. -/
theorem C9_witness :
    ∃ q, dlookup "b" [("b", (Sum.inr (1, 0, 2, 0) : IUVal))] = some (Sum.inr q) :=
  C9_cws_amended.2.2 cbC2 "\x7b\x7bb:i1\x7d\x7d" "\x7b\x7bb:i2\x7d\x7d"
    [("b", Sum.inr (1, 0, 2, 0))] (by rfl) "b" (by decide)

theorem mem_of_mem_takeWhile {p : Char → Bool} :
    ∀ (l : List Char) (x : Char), x ∈ l.takeWhile p → x ∈ l := by
  intro l
  induction l with
  | nil => intro x h; cases h
  | cons a t ih =>
    intro x h
    rw [List.takeWhile_cons] at h
    by_cases hp : p a
    · rw [if_pos hp] at h
      rcases List.mem_cons.mp h with h0 | ht
      · exact h0 ▸ List.mem_cons_self _ _
      · exact List.mem_cons_of_mem _ (ih x ht)
    · rw [if_neg hp] at h
      cases h

theorem takeWhile_append_stop {q : Char → Bool} (p rest : List Char) (hq : q '\n' = false) :
    (p ++ '\n' :: rest).takeWhile q = p.takeWhile q := by
  induction p with
  | nil =>
    simp only [List.nil_append, List.takeWhile_cons, hq]
    rfl
  | cons d p' ih =>
    rw [List.cons_append, List.takeWhile_cons, List.takeWhile_cons]
    by_cases hd : q d
    · rw [if_pos hd, if_pos hd, ih]
    · rw [if_neg hd, if_neg hd]

theorem alt1_none (t : List Char) (h : t.head? ≠ some '\x7b') : alt1 t = none := by
  rw [alt1.eq_def]
  split
  · next c1 c2 r =>
    rw [if_neg]
    intro hc
    exact h (by simp [hc.1])
  · rfl

theorem alt2_none (t : List Char) (h : t.head? ≠ some '\x7b') : alt2 t = none := by
  rw [alt2.eq_def]
  split
  · next c1 r =>
    rw [if_neg]
    intro hc
    exact h (by simp [hc])
  · rfl

theorem alt4_none (t : List Char) (h : t.head? ≠ some '\x7b') : alt4 t = none := by
  rw [alt4.eq_def]
  split
  · next c1 c2 r =>
    rw [if_neg]
    intro hc
    exact h (by simp [hc.1])
  · rfl

theorem matchPat_brace (l : List Char)
    (hm : (match l with | '\x7b' :: '\x7b' :: _ => true | _ => false) = true) :
    '\x7b' ∈ l := by
  split at hm
  · next tail => exact List.mem_cons_self _ _
  · exact Bool.noConfusion hm

theorem alt3_none (t : List Char)
    (h : '\x7b' ∉ t.takeWhile (fun c => c ≠ '\n')) : alt3 t = none := by
  have hopens :
      ((List.range (t.takeWhile (fun c => c ≠ '\n')).length).filter (fun i =>
        decide (1 ≤ i) &&
          (match (t.takeWhile (fun c => c ≠ '\n')).drop i with
           | '\x7b' :: '\x7b' :: _ => true
           | _ => false))) = [] := by
    refine List.filter_eq_nil_iff.mpr ?_
    intro i _ hp
    rw [Bool.and_eq_true] at hp
    exact h (List.mem_of_mem_drop (matchPat_brace _ hp.2))
  simp only [alt3, hopens]
  simp

theorem matchAt_none_pre (c : Char) (p : List Char) (hp : '\x7b' ∉ c :: p) :
    matchAt (c :: (p ++ tgtC8)) = none := by
  by_cases hc : c = '\n'
  · subst hc
    have hhead : (p ++ tgtC8).head? ≠ some '\x7b' := by
      cases p with
      | nil => decide
      | cons d p' =>
        simp only [List.cons_append, List.head?]
        intro heq
        injection heq with hd
        exact hp (by rw [hd]; exact List.mem_cons_of_mem _ (List.mem_cons_self _ _))
    have htw : '\x7b' ∉ (p ++ tgtC8).takeWhile (fun x => x ≠ '\n') := by
      have htg : tgtC8 = '\n' :: (("\x7babc\x7d\x7d\n" : String).data) := rfl
      rw [htg, takeWhile_append_stop p _ (by decide)]
      intro hmem
      exact hp (List.mem_cons_of_mem _ (mem_of_mem_takeWhile p _ hmem))
    simp only [matchAt]
    rw [if_neg (by simp)]
    simp only [alt1_none _ hhead, alt2_none _ hhead, alt3_none _ htw, alt4_none _ hhead]
  · simp [matchAt, hc]

theorem findAllFrom_skip : ∀ p : List Char, '\x7b' ∉ p →
    findAllFrom ((p ++ tgtC8).length) (p ++ tgtC8) = findAllFrom tgtC8.length tgtC8 := by
  intro p
  induction p with
  | nil => intro _; rfl
  | cons c p' ih =>
    intro hp
    have hm : matchAt (c :: (p' ++ tgtC8)) = none := matchAt_none_pre c p' hp
    have hlen : ((c :: p') ++ tgtC8).length = (p' ++ tgtC8).length + 1 := by simp
    rw [List.cons_append] at hlen ⊢
    rw [hlen]
    simp only [findAllFrom, hm]
    exact ih (fun hmem => hp (List.mem_cons_of_mem _ hmem))

/-- Claim C8 (amended): for every text of the form pre ++ "\n" ++ "(open
brace)abc(close)(close)" ++ "\n" where pre contains no opening brace,
find_all_annotationish yields exactly one match, populating only the
malformed-opening slot, and check_annotationish on it returns an error message
and no annotation text; when the line is not preceded by a newline (e.g. at
the start of the file) no match is yielded at all (see the counterexample). -/
theorem C8_annotationish_amended (pre : List Char) (hpre : '\x7b' ∉ pre) :
    find_all_annotationish ⟨pre ++ tgtC8⟩ = [("", "\x7babc\x7d\x7d", "", "")] ∧
      check_annotationish ("", "\x7babc\x7d\x7d", "", "") =
        (some ("second opening brace appears to be missing: \x27\x7babc\x7d\x7d\x27\n"),
         none) := by
  constructor
  · show findAllFrom (pre ++ tgtC8).length (pre ++ tgtC8) = _
    rw [findAllFrom_skip pre hpre]
    decide
  · decide

/-- Counterexample to claim C8: the text consisting of the single line
`(open brace)abc(close)(close)` followed by a newline contains that brace
sequence alone on its own line, yet find_all_annotationish yields no match at
all (the regex demands a preceding newline), so no malformed-opening
classification ever happens for it. -/
theorem C8_counterexample :
    ("\x7babc\x7d\x7d\n" : String).data = ("\x7babc\x7d\x7d" : String).data ++ ['\n'] ∧
      find_all_annotationish "\x7babc\x7d\x7d\n" = [] := by
  exact ⟨rfl, by decide⟩

/-- Witness for C8 (amended): the brace-free prefix `x`. -/
theorem C8_witness :
    find_all_annotationish ⟨['x'] ++ tgtC8⟩ = [("", "\x7babc\x7d\x7d", "", "")] :=
  (C8_annotationish_amended ['x'] (by decide)).1
